import Mathlib

/-
  Verification of the in-memory property graph of the glTF-Transform core
  (Graph / Link / Property / Document layer).

  The embedding works over explicit state values:
  * object identity of participants and links is modelled by natural-number
    ids handed out by allocation counters carried in the Graph state;
  * the Graph state holds the registry of links (registration order) and the
    set of allocated participants with their concrete type;
  * stateful methods become functions from state to (result, state).

  Definitions translated from the repository sources keep the source names.
  The Graph and Property base classes are not part of the available sources
  (only their callers are); those definitions are modelled from the
  specification and are marked as such in their doc comments.
-/

namespace GT

abbrev PropId := Nat

/-- Concrete participant types of the library (the constructor classes). -/
inductive PType where
  | root
  | scene
  | node
  | camera
  | skin
  | mesh
  | primitive
  | primitiveTarget
  | material
  | texture
  | textureInfo
  | animation
  | animationChannel
  | animationSampler
  | accessor
  | buffer
deriving DecidableEq

/-- An allocated graph participant: its object identity, concrete type and
display name. -/
structure PropRec where
  id : PropId
  ptype : PType
  pname : String
deriving DecidableEq

/-- A Link identifies a relation name, a source participant and a target
participant.  The lid field models the object identity of the link,
assigned at registration. -/
structure Link where
  lid : Nat
  name : String
  source : PropId
  target : PropId
deriving DecidableEq

/-- The Graph state: the registry of all active Links, in registration
order, plus the pool of allocated participants (modelling object
allocation, so that fresh participants receive fresh identities). -/
structure Graph where
  links : List Link
  nextLinkId : Nat
  props : List PropRec
  nextPropId : Nat
deriving DecidableEq

/-- Allocation of a new participant of a given concrete type (the effect of
a constructor call such as new Node(graph, name)). -/
def Graph.allocProp (g : Graph) (t : PType) (n : String) : PropId × Graph :=
  (g.nextPropId,
    { g with
      props := g.props ++ [⟨g.nextPropId, t, n⟩]
      nextPropId := g.nextPropId + 1 })

/-- Modelled from the spec: Graph.link(relationName, source, target) returns
null if the target is absent (treated as no relation, not an error);
otherwise it creates and registers a Link.  The Graph base class is not in
the available sources. -/
def Graph.link (g : Graph) (name : String) (a : PropId) :
    Option PropId → Option Link × Graph
  | none => (none, g)
  | some b =>
    let l : Link := ⟨g.nextLinkId, name, a, b⟩
    (some l, { g with nextLinkId := g.nextLinkId + 1, links := g.links ++ [l] })

/-- Modelled from the spec: Graph.listParents scans all registered Links for
those whose target is the given participant and returns the distinct
sources in link-registration order. -/
def Graph.listParents (g : Graph) (p : PropId) : List PropId :=
  (((g.links.filter (fun l => l.target == p))).map Link.source).dedup

/-- Modelled from the spec: Graph.listChildLinks returns exactly the Links
whose source is the given participant. -/
def Graph.listChildLinks (g : Graph) (p : PropId) : List Link :=
  g.links.filter (fun l => l.source == p)

/-- Modelled from the spec: Graph.disposeLinksFor removes every Link where
the participant is source or target. -/
def Graph.disposeLinksFor (g : Graph) (p : PropId) : Graph :=
  { g with links := g.links.filter (fun l => !(l.source == p || l.target == p)) }

/-- Modelled from the spec: Graph.disconnect removes every Link where the
participant is source, leaving inbound links intact. -/
def Graph.disconnect (g : Graph) (p : PropId) : Graph :=
  { g with links := g.links.filter (fun l => !(l.source == p)) }

/-- A TextureLink additionally carries the auxiliary link to the
sampler-parameter TextureInfo object. -/
structure TextureLink where
  toLink : Link
  textureInfoLink : Option Link
deriving DecidableEq

/-- From PropertyGraph.linkTexture: if the texture is absent return null;
otherwise construct a TextureLink, attach an auxiliary link named
name + "Info" from the owner to a freshly constructed TextureInfo, and
register both (the auxiliary link through Graph.link, then the TextureLink
itself). -/
def PropertyGraph.linkTexture (g : Graph) (name : String) (a : PropId) :
    Option PropId → Option TextureLink × Graph
  | none => (none, g)
  | some b =>
    let alloc := g.allocProp PType.textureInfo ""
    let step := alloc.2.link (name ++ "Info") a (some alloc.1)
    let tl : Link := ⟨step.2.nextLinkId, name, a, b⟩
    (some ⟨tl, step.1⟩,
      { step.2 with
        nextLinkId := step.2.nextLinkId + 1
        links := step.2.links ++ [tl] })

/-- From PropertyGraph.linkAttribute: if the accessor is absent return null;
otherwise create an AttributeLink and register it. -/
def PropertyGraph.linkAttribute (g : Graph) (name : String) (a : PropId) :
    Option PropId → Option Link × Graph
  | none => (none, g)
  | some b =>
    let l : Link := ⟨g.nextLinkId, name, a, b⟩
    (some l, { g with nextLinkId := g.nextLinkId + 1, links := g.links ++ [l] })

/-- From PropertyGraph.linkIndex: if the accessor is absent return null;
otherwise create an IndexLink and register it. -/
def PropertyGraph.linkIndex (g : Graph) (name : String) (a : PropId) :
    Option PropId → Option Link × Graph
  | none => (none, g)
  | some b =>
    let l : Link := ⟨g.nextLinkId, name, a, b⟩
    (some l, { g with nextLinkId := g.nextLinkId + 1, links := g.links ++ [l] })

/-- The graph-tracked local state of a Node: the single-valued camera and
mesh references and the ordered child list (from the Node class; the plain
vector data is omitted as no claim mentions it). -/
structure Node where
  id : PropId
  camera : Option Link
  mesh : Option Link
  children : List Link
deriving DecidableEq

/-- A freshly constructed Node: the GraphChild fields are initialized to
null and the child list is empty. -/
def Node.new (id : PropId) : Node :=
  ⟨id, none, none, []⟩

/-- From Node.getMesh: return the link target if the mesh link is set,
otherwise null. -/
def Node.getMesh (n : Node) : Option PropId :=
  n.mesh.map Link.target

/-- From Node.setMesh: store the result of graph.link, which is null when
the argument is absent. -/
def Node.setMesh (n : Node) (g : Graph) (mesh : Option PropId) : Node × Graph :=
  let step := g.link "mesh" n.id mesh
  ({ n with mesh := step.1 }, step.2)

/-- From Node.getCamera: return the link target if the camera link is set,
otherwise null. -/
def Node.getCamera (n : Node) : Option PropId :=
  n.camera.map Link.target

/-- From Node.setCamera: store the result of graph.link, which is null when
the argument is absent. -/
def Node.setCamera (n : Node) (g : Graph) (camera : Option PropId) : Node × Graph :=
  let step := g.link "camera" n.id camera
  ({ n with camera := step.1 }, step.2)

/-- Modelled from the spec: Property.removeGraphChild(collection, target)
finds the Link in the local list whose target equals the given target,
removes it from the list and unregisters it from the Graph; it is a no-op
if no such Link is found.  The Property base class is not in the available
sources. -/
def removeGraphChild (g : Graph) (children : List Link) (target : PropId) :
    List Link × Graph :=
  match children.find? (fun l => l.target == target) with
  | none => (children, g)
  | some l => (children.erase l, { g with links := g.links.erase l })

/-- From Node.removeChild: delegate to removeGraphChild on the child list. -/
def Node.removeChild (n : Node) (g : Graph) (child : PropId) : Node × Graph :=
  let step := removeGraphChild g n.children child
  ({ n with children := step.1 }, step.2)

/-- An enabled Extension, identified by its extension name, with its
required flag (initialized to false by the Extension constructor). -/
structure Extension where
  extensionName : String
  required : Bool
deriving DecidableEq

/-- The Document state: its Graph, the identity of its Root, and the list
of extensions enabled on the Root (in enabling order). -/
structure Document where
  graph : Graph
  rootId : PropId
  extensionsUsed : List Extension
deriving DecidableEq

/-- A new Document: a fresh Graph holding only the freshly constructed
Root, and no extensions. -/
def Document.new : Document :=
  let alloc := (Graph.mk [] 0 [] 0).allocProp PType.root ""
  ⟨alloc.2, alloc.1, []⟩

/-- From Document.createExtension: if an extension with the same extension
name is already enabled for the document the previous reference is reused;
otherwise a new extension is constructed, which enables it on the Root
with required initialized to false.  Extension constructors are identified
by their extension names. -/
def Document.createExtension (d : Document) (name : String) :
    Extension × Document :=
  match d.extensionsUsed.find? (fun e => e.extensionName == name) with
  | some e => (e, d)
  | none =>
    (⟨name, false⟩, { d with extensionsUsed := d.extensionsUsed ++ [⟨name, false⟩] })

/-- The effect of setRequired(true) called on the extension object returned
by createExtension: that object is the first enabled extension carrying the
given extension name, so its required flag is set in place. -/
def setFirstRequired : List Extension → String → List Extension
  | [], _ => []
  | e :: rest, n =>
    if e.extensionName == n then { e with required := true } :: rest
    else e :: setFirstRequired rest n

/-- Modelled from the spec: Root collection attachment (the hidden _addScene,
_addNode, ... methods): a top-level participant is attached to the Root by
a link in the corresponding collection relation. -/
def Document.addToRoot (d : Document) (rel : String) (p : PropId) : Document :=
  { d with graph := (d.graph.link rel d.rootId (some p)).2 }

/-- From Document.createNode: construct a Node and attach it to the Root. -/
def Document.createNode (d : Document) (name : String) : PropId × Document :=
  let alloc := d.graph.allocProp PType.node name
  (alloc.1, Document.addToRoot { d with graph := alloc.2 } "node" alloc.1)

/-- From Document.createTexture: construct a Texture and attach it to the
Root. -/
def Document.createTexture (d : Document) (name : String) : PropId × Document :=
  let alloc := d.graph.allocProp PType.texture name
  (alloc.1, Document.addToRoot { d with graph := alloc.2 } "texture" alloc.1)

/-- From Document.createMaterial: construct a Material and attach it to the
Root. -/
def Document.createMaterial (d : Document) (name : String) : PropId × Document :=
  let alloc := d.graph.allocProp PType.material name
  (alloc.1, Document.addToRoot { d with graph := alloc.2 } "material" alloc.1)

/-- From Document.createBuffer: construct a Buffer and attach it to the
Root. -/
def Document.createBuffer (d : Document) (name : String) : PropId × Document :=
  let alloc := d.graph.allocProp PType.buffer name
  (alloc.1, Document.addToRoot { d with graph := alloc.2 } "buffer" alloc.1)

/-- The Root buffer collection, in attachment order (Root.listBuffers). -/
def Document.listBuffers (d : Document) : List PropId :=
  (d.graph.links.filter (fun l => l.source == d.rootId && l.name == "buffer")).map
    Link.target

/-- From Document.createAccessor: when the buffer argument is absent, the
first element of the Root buffer collection is used; the Accessor is
constructed, its buffer reference set (a single-valued graph link, absent
when the buffer is absent), and the Accessor attached to the Root. -/
def Document.createAccessor (d : Document) (name : String)
    (buffer : Option PropId) : PropId × Document :=
  let buffer := match buffer with
    | none => d.listBuffers.head?
    | some b => some b
  let alloc := d.graph.allocProp PType.accessor name
  let g2 := (alloc.2.link "buffer" alloc.1 buffer).2
  (alloc.1, Document.addToRoot { d with graph := g2 } "accessor" alloc.1)

/-- Modelled from the spec: Property.dispose removes every Link touching
the participant, cascades over the transitively exclusively-owned child
participants (passed here as the list owned, as driven by the per-type
declaration lists of spec section 9), and removes the disposed participants
from the live pool; removal from the Root collection is the removal of the
inbound collection link.  The Property base class is not in the available
sources. -/
def Document.disposeWith (d : Document) (p : PropId) (owned : List PropId) :
    Document :=
  let g1 := (p :: owned).foldl Graph.disposeLinksFor d.graph
  { d with graph :=
      { g1 with props := g1.props.filter (fun r => !(r.id == p || owned.contains r.id)) } }

/-- The concrete type of an allocated participant. -/
def Graph.typeOf (g : Graph) (p : PropId) : Option PType :=
  (g.props.find? (fun r => r.id == p)).map PropRec.ptype

/-- The endpoints of a list of links, each link contributing its parent and
then its child, in registry order (the iteration order of step 3 of
Document.merge). -/
def linkEndpoints : List Link → List PropId
  | [] => []
  | l :: rest => l.source :: l.target :: linkEndpoints rest

/-- One step of step 3 of Document.merge: if the participant has not been
visited, map it to a freshly constructed stub of the same concrete type in
the destination graph. -/
def Document.addStub (srcG : Graph) (st : List (PropId × PropId) × Graph)
    (p : PropId) : List (PropId × PropId) × Graph :=
  if (st.1.find? (fun e => e.1 == p)).isSome then st
  else
    let alloc := st.2.allocProp ((srcG.typeOf p).getD PType.node) ""
    (st.1 ++ [(p, alloc.1)], alloc.2)

/-- Steps 2 and 3 of Document.merge: the property map is seeded with the
source Root mapped to the destination Root, then every endpoint of every
link registered in the source graph is given a freshly constructed stub of
its own concrete type in the destination graph. -/
def Document.mergeStubs (dest src : Document) :
    List (PropId × PropId) × Document :=
  let st := (linkEndpoints src.graph.links).foldl (Document.addStub src.graph)
    ([(src.rootId, dest.rootId)], dest.graph)
  (st.1, { dest with graph := st.2 })

/-- The resolve function of step 4 of Document.merge: lookup in the
property map. -/
def resolveIn (pmap : List (PropId × PropId)) (p : PropId) : Option PropId :=
  (pmap.find? (fun e => e.1 == p)).map Prod.snd

/-- Modelled from the spec: Property.copy(other, resolveFn) copies the
display name and, for every outbound Link of the copied participant,
creates the equivalent relation on the copy, the target being obtained
through the caller-supplied resolve function (an absent resolution creates
no link, as in Graph.link).  The Property base class is not in the
available sources. -/
def Graph.copyProp (g : Graph) (srcG : Graph) (selfId otherId : PropId)
    (resolve : PropId → Option PropId) : Graph :=
  let g1 := match srcG.props.find? (fun r => r.id == otherId) with
    | some r =>
      { g with props :=
          (g.props.map
            (fun q => if q.id == selfId then { q with pname := r.pname } else q)) }
    | none => g
  (srcG.links.filter (fun l => l.source == otherId)).foldl
    (fun g2 l => (g2.link l.name selfId (resolve l.target)).2) g1

/-- Step 4 of Document.merge: every mapped participant is copied, in
visiting order, resolving targets through the property map. -/
def Document.mergeCopy (dest src : Document)
    (pmap : List (PropId × PropId)) : Document :=
  { dest with graph :=
      (pmap.foldl
        (fun g e => g.copyProp src.graph e.2 e.1 (resolveIn pmap)) dest.graph) }

/-- Step 1 of Document.merge as written in the source: for every extension
used by the source Root, createExtension is invoked on the SOURCE document
(the receiver of the call is other, not this), and when the source
extension is required, setRequired(true) is applied to the returned
extension object, which lives in the source document.  The destination is
returned untouched by this step; the second component is the resulting
state of the source document.  The loop body (one extension of the source
list) is mergeExtStep; mergeExtensions folds it over the snapshot of the
source extension list. -/
def Document.mergeExtStep (s : Document) (e : Extension) : Document :=
  let step := s.createExtension e.extensionName
  if e.required then
    { step.2 with
      extensionsUsed := setFirstRequired step.2.extensionsUsed e.extensionName }
  else step.2

def Document.mergeExtensions (dest src : Document) : Document × Document :=
  (dest, src.extensionsUsed.foldl Document.mergeExtStep src)

/-- From Document.merge: attach extensions (step 1), build the stub map
(steps 2 and 3), wire the links by copying every mapped participant
(step 4).  The first component is the resulting destination document, the
second the resulting state of the source document. -/
def Document.merge (dest src : Document) : Document × Document :=
  let step1 := Document.mergeExtensions dest src
  let step2 := Document.mergeStubs step1.1 step1.2
  (Document.mergeCopy step2.2 step1.2 step2.1, step1.2)

/-- From Document.clone: merge this document into a new empty Document. -/
def Document.clone (d : Document) : Document :=
  (Document.merge Document.new d).1

/-- Well-formedness of a Document state, as maintained by the public
construction API: participant identities are distinct and below the
allocation counter, the Root is an allocated participant of Root type,
every registered link joins allocated participants, and extension names
are distinct (createExtension reuses an extension of the same name). -/
def Document.WF (d : Document) : Prop :=
  (d.graph.props.map PropRec.id).Nodup ∧
  (∀ r ∈ d.graph.props, r.id < d.graph.nextPropId) ∧
  (∃ r ∈ d.graph.props, r.id = d.rootId ∧ r.ptype = PType.root) ∧
  (∀ l ∈ d.graph.links,
    (∃ r ∈ d.graph.props, r.id = l.source) ∧ (∃ r ∈ d.graph.props, r.id = l.target)) ∧
  (d.extensionsUsed.map Extension.extensionName).Nodup

/-- The participants reachable from the Root of a document by following
registered links forward. -/
inductive Document.Reaches (d : Document) : PropId → Prop where
  | root : Document.Reaches d d.rootId
  | step {p : PropId} {l : Link} : Document.Reaches d p → l ∈ d.graph.links →
      l.source = p → Document.Reaches d l.target

/-- The outbound link signature of a participant: relation names and
targets, in registration order, targets read through a renaming. -/
def Document.outSig (d : Document) (f : PropId → PropId) (p : PropId) :
    List (String × PropId) :=
  (d.graph.links.filter (fun l => l.source == p)).map (fun l => (l.name, f l.target))

/-- Modelled from the spec: the equals contract of section 4.2 lifted to
documents, as used by the round-trip property of section 8 (ignoring
identity, comparing structure): some renaming of participant identities
carries the first Root to the second Root and carries the outbound link
signature of every reachable participant of the first document to the
outbound link signature of its image in the second. -/
def Document.equals (d1 d2 : Document) : Prop :=
  ∃ f : PropId → PropId, f d1.rootId = d2.rootId ∧
    ∀ p, Document.Reaches d1 p →
      Document.outSig d1 f p = Document.outSig d2 id (f p)

/-- A sample document holding one Node: used to instantiate theorems with
hypotheses at a concrete input. -/
def sampleNodeDoc : Document :=
  (Document.new.createNode "n").2

/-- A sample document with one required extension enabled. -/
def sampleExtDoc : Document :=
  let d := (Document.new.createExtension "TEST_extension").2
  { d with extensionsUsed := setFirstRequired d.extensionsUsed "TEST_extension" }

/-- A sample document with one required extension and one Node. -/
def sampleExtNodeDoc : Document :=
  (sampleExtDoc.createNode "n").2

/-- A sample document with one Buffer. -/
def sampleBufferDoc : Document :=
  (Document.new.createBuffer "b").2

instance (d : Document) : Decidable (Document.WF d) := by
  unfold Document.WF
  exact inferInstance

/-- A link with its identity erased: relation name, source, target. -/
def stripLid (l : Link) : String × PropId × PropId :=
  (l.name, l.source, l.target)

/-- The outbound signature of a participant read off a list of
identity-erased links, targets renamed through h. -/
def sigStrip (q : PropId) (h : PropId → PropId) :
    List (String × PropId × PropId) → List (String × PropId) :=
  List.filterMap (fun x => if x.2.1 == q then some (x.1, h x.2.2) else none)

/-- The identity-erased links produced by the copy phase: for each map
entry, the outbound links of the source participant, renamed to the
destination stub as source and through f on targets, in visiting order. -/
def copiedSigs (srcG : Graph) (f : PropId → PropId) :
    List (PropId × PropId) → List (String × PropId × PropId)
  | [] => []
  | e :: rest =>
    (srcG.links.filter (fun l => l.source == e.1)).map
      (fun l => (l.name, e.2, f l.target)) ++ copiedSigs srcG f rest

/-- The target each source participant resolves to through a property
map (defaulting to itself when unmapped, a case that does not arise for
link endpoints). -/
def resolveD (pmap : List (PropId × PropId)) (p : PropId) : PropId :=
  (resolveIn pmap p).getD p

/-- The inverse reading of a property map: the source participant a
destination stub was created for. -/
def unresolveD (pmap : List (PropId × PropId)) (q : PropId) : PropId :=
  ((pmap.find? (fun e => e.2 == q)).map Prod.fst).getD q

/-- Invariant carried through step 3 of Document.merge (the stub-building
fold): processed lists the endpoints consumed so far, st is the current
property map and destination graph. -/
structure StubInv (dest src : Document) (processed : List PropId)
    (st : List (PropId × PropId) × Graph) : Prop where
  keys_nodup : (st.1.map Prod.fst).Nodup
  vals_nodup : (st.1.map Prod.snd).Nodup
  keys_iff : ∀ p, (∃ q, (p, q) ∈ st.1) ↔ (p = src.rootId ∨ p ∈ processed)
  root_mem : (src.rootId, dest.rootId) ∈ st.1
  props_ext : ∀ r ∈ st.2.props, r ∈ dest.graph.props ∨ dest.graph.nextPropId ≤ r.id
  props_old : ∀ r ∈ dest.graph.props, r ∈ st.2.props
  props_lt : ∀ r ∈ st.2.props, r.id < st.2.nextPropId
  props_nodup : (st.2.props.map PropRec.id).Nodup
  next_ge : dest.graph.nextPropId ≤ st.2.nextPropId
  vals_spec : ∀ e ∈ st.1,
    (e.1 = src.rootId ∧ e.2 = dest.rootId) ∨
    (e.1 ≠ src.rootId ∧ dest.graph.nextPropId ≤ e.2 ∧
      st.2.typeOf e.2 = src.graph.typeOf e.1)
  vals_props : ∀ e ∈ st.1, ∃ r ∈ st.2.props, r.id = e.2
  links_eq : st.2.links = dest.graph.links
  nextLink_eq : st.2.nextLinkId = dest.graph.nextLinkId

/-- Claim C6: every link-creation operation of the graph (link,
linkTexture, linkAttribute, linkIndex), for every relation name and source
participant, returns null and registers no Link when the target is absent,
and otherwise returns a Link registered in the Graph. -/
theorem link_ops_absent_target_null (g : Graph) (name : String) (a t : PropId) :
    (g.link name a none = (none, g) ∧
      ∃ l g2, g.link name a (some t) = (some l, g2) ∧ l ∈ g2.links) ∧
    (PropertyGraph.linkAttribute g name a none = (none, g) ∧
      ∃ l g2, PropertyGraph.linkAttribute g name a (some t) = (some l, g2) ∧
        l ∈ g2.links) ∧
    (PropertyGraph.linkIndex g name a none = (none, g) ∧
      ∃ l g2, PropertyGraph.linkIndex g name a (some t) = (some l, g2) ∧
        l ∈ g2.links) ∧
    (PropertyGraph.linkTexture g name a none = (none, g) ∧
      ∃ tl g2, PropertyGraph.linkTexture g name a (some t) = (some tl, g2) ∧
        tl.toLink ∈ g2.links) := by
  refine ⟨⟨rfl, ?_⟩, ⟨rfl, ?_⟩, ⟨rfl, ?_⟩, ⟨rfl, ?_⟩⟩
  · exact ⟨_, _, rfl, by simp [Graph.link]⟩
  · exact ⟨_, _, rfl, by simp [PropertyGraph.linkAttribute]⟩
  · exact ⟨_, _, rfl, by simp [PropertyGraph.linkIndex]⟩
  · exact ⟨_, _, rfl, by simp [PropertyGraph.linkTexture, Graph.link, Graph.allocProp]⟩

/-- Claim C8: linkTexture with a present texture returns a TextureLink
carrying, besides the texture relation itself, an auxiliary link named
name + "Info" from the owner to a freshly constructed TextureInfo, and
both links are registered in the Graph. -/
theorem linkTexture_attaches_texture_info (g : Graph) (name : String)
    (a b : PropId) (hfresh : ∀ r ∈ g.props, r.id < g.nextPropId) :
    ∃ tl g2, PropertyGraph.linkTexture g name a (some b) = (some tl, g2) ∧
      tl.toLink.name = name ∧ tl.toLink.source = a ∧ tl.toLink.target = b ∧
      tl.toLink ∈ g2.links ∧
      ∃ il, tl.textureInfoLink = some il ∧
        il.name = name ++ "Info" ∧ il.source = a ∧ il ∈ g2.links ∧
        (⟨il.target, PType.textureInfo, ""⟩ : PropRec) ∈ g2.props ∧
        ∀ r ∈ g.props, r.id ≠ il.target := by
  refine ⟨_, _, rfl, rfl, rfl, rfl, ?_, _, rfl, rfl, rfl, ?_, ?_, ?_⟩
  · simp [PropertyGraph.linkTexture, Graph.link, Graph.allocProp]
  · simp [PropertyGraph.linkTexture, Graph.link, Graph.allocProp]
  · simp [PropertyGraph.linkTexture, Graph.link, Graph.allocProp]
  · intro r hr
    exact Nat.ne_of_lt (hfresh r hr)

/-- Witness for claim C8 at a concrete graph. -/
theorem linkTexture_attaches_texture_info_witness :
    (∀ r ∈ Document.new.graph.props, r.id < Document.new.graph.nextPropId) ∧
    (∃ tl g2,
      PropertyGraph.linkTexture Document.new.graph "baseColorTexture" 2 (some 7)
        = (some tl, g2) ∧
      tl.toLink.name = "baseColorTexture" ∧ tl.toLink.source = 2 ∧
      tl.toLink.target = 7 ∧ tl.toLink ∈ g2.links ∧
      ∃ il, tl.textureInfoLink = some il ∧
        il.name = "baseColorTexture" ++ "Info" ∧ il.source = 2 ∧ il ∈ g2.links ∧
        (⟨il.target, PType.textureInfo, ""⟩ : PropRec) ∈ g2.props ∧
        ∀ r ∈ Document.new.graph.props, r.id ≠ il.target) :=
  ⟨by decide,
    linkTexture_attaches_texture_info Document.new.graph "baseColorTexture" 2 7
      (by decide)⟩

theorem filter_idem {α : Type} (q : α → Bool) (ls : List α) :
    (ls.filter q).filter q = ls.filter q := by
  rw [List.filter_eq_self]
  intro a ha
  exact List.of_mem_filter ha

theorem foldl_disposeLinksFor_links (ps : List PropId) (g : Graph) :
    (ps.foldl Graph.disposeLinksFor g).links =
      g.links.filter
        (fun l => ps.all (fun q => !(l.source == q || l.target == q))) := by
  induction ps generalizing g with
  | nil => simp
  | cons q ps ih =>
    simp only [List.foldl_cons, ih, Graph.disposeLinksFor, List.filter_filter]
    apply List.filter_congr
    intro l _
    simp [List.all_cons, Bool.and_comm]

theorem foldl_disposeLinksFor_frame (ps : List PropId) (g : Graph) :
    (ps.foldl Graph.disposeLinksFor g).props = g.props ∧
    (ps.foldl Graph.disposeLinksFor g).nextLinkId = g.nextLinkId ∧
    (ps.foldl Graph.disposeLinksFor g).nextPropId = g.nextPropId := by
  induction ps generalizing g with
  | nil => exact ⟨rfl, rfl, rfl⟩
  | cons q ps ih => simpa [Graph.disposeLinksFor] using ih _

theorem disposeWith_eq (d : Document) (p : PropId) (owned : List PropId) :
    Document.disposeWith d p owned =
      { d with graph :=
          (Graph.mk
            (d.graph.links.filter
              (fun l => (p :: owned).all (fun q => !(l.source == q || l.target == q))))
            d.graph.nextLinkId
            (d.graph.props.filter (fun r => !(r.id == p || owned.contains r.id)))
            d.graph.nextPropId) } := by
  have h1 := foldl_disposeLinksFor_links (p :: owned) d.graph
  have h2 := foldl_disposeLinksFor_frame (p :: owned) d.graph
  unfold Document.disposeWith
  dsimp only
  congr 1
  rw [h2.1, h2.2.1, h2.2.2, h1]

/-- Claim C1: after a participant is disposed, listParents on it is empty,
no Link registered in the Graph has it as target, and every Link that
pointed at it was removed by the dispose operation. -/
theorem dispose_referential_integrity (d : Document) (p : PropId)
    (owned : List PropId) :
    (Document.disposeWith d p owned).graph.listParents p = [] ∧
    (∀ l ∈ (Document.disposeWith d p owned).graph.links, l.target ≠ p) ∧
    (∀ l ∈ d.graph.links, l.target = p →
      l ∉ (Document.disposeWith d p owned).graph.links) := by
  have hnot : ∀ l ∈ (Document.disposeWith d p owned).graph.links, l.target ≠ p := by
    intro l hl
    rw [disposeWith_eq] at hl
    have hmem := List.of_mem_filter hl
    simp only [List.all_cons, Bool.and_eq_true, Bool.not_eq_true',
      Bool.or_eq_false_iff, beq_eq_false_iff_ne] at hmem
    exact hmem.1.2
  refine ⟨?_, hnot, ?_⟩
  · have hfil : (Document.disposeWith d p owned).graph.links.filter
        (fun l => l.target == p) = [] := by
      rw [List.filter_eq_nil_iff]
      intro l hl
      simpa using hnot l hl
    simp [Graph.listParents, hfil]
  · intro l _ htgt hmem
    exact hnot l hmem htgt

/-- Claim C7: disposing a participant a second time raises no error and
produces exactly the state of disposing it once, and removeChild on an
already-removed target is a successful no-op. -/
theorem dispose_idempotent_removeChild_noop (d : Document) (p : PropId)
    (owned : List PropId) (g : Graph) (children : List Link) (t : PropId)
    (h : ∀ l ∈ children, l.target ≠ t) :
    Document.disposeWith (Document.disposeWith d p owned) p owned =
      Document.disposeWith d p owned ∧
    removeGraphChild g children t = (children, g) := by
  constructor
  · rw [disposeWith_eq d p owned, disposeWith_eq]
    congr 1
    rw [filter_idem, filter_idem]
  · have hfind : children.find? (fun l => l.target == t) = none := by
      rw [List.find?_eq_none]
      intro l hl
      simpa using h l hl
    simp [removeGraphChild, hfind]

/-- Witness for claim C7 at a concrete input. -/
theorem dispose_idempotent_removeChild_noop_witness :
    (∀ l ∈ ([] : List Link), l.target ≠ 3) ∧
    (Document.disposeWith (Document.disposeWith sampleNodeDoc 1 []) 1 [] =
        Document.disposeWith sampleNodeDoc 1 [] ∧
      removeGraphChild Document.new.graph [] 3 = ([], Document.new.graph)) :=
  ⟨by decide,
    dispose_idempotent_removeChild_noop sampleNodeDoc 1 [] Document.new.graph []
      3 (by decide)⟩

theorem createAccessor_default_buffer (d : Document) (name : String)
    (h : Document.WF d) :
    ((Document.createAccessor d name none).2.graph.links.filter
        (fun l => l.source == (Document.createAccessor d name none).1
          && l.name == "buffer")).map Link.target
      = d.listBuffers.head?.toList := by
  obtain ⟨-, hlt, -, hlinks, -⟩ := h
  have hfilold : d.graph.links.filter
      (fun l => l.source == d.graph.nextPropId && l.name == "buffer") = [] := by
    rw [List.filter_eq_nil_iff]
    intro l hl
    obtain ⟨⟨r, hr, hrs⟩, -⟩ := hlinks l hl
    have hlt2 := hlt r hr
    have hne : (l.source == d.graph.nextPropId) = false := by
      rw [beq_eq_false_iff_ne]
      intro hEq
      rw [hrs, hEq] at hlt2
      exact Nat.lt_irrefl _ hlt2
    simp [hne]
  cases hcase : d.listBuffers.head? with
  | none =>
    simp [Document.createAccessor, hcase, Document.addToRoot, Graph.allocProp,
      Graph.link, List.filter_append, hfilold]
  | some b =>
    simp [Document.createAccessor, hcase, Document.addToRoot, Graph.allocProp,
      Graph.link, List.filter_append, hfilold]

/-- Witness for the createAccessor default-buffer theorem at a document
with one buffer. -/
theorem createAccessor_default_buffer_witness :
    Document.WF sampleBufferDoc ∧
    ((Document.createAccessor sampleBufferDoc "a" none).2.graph.links.filter
        (fun l => l.source == (Document.createAccessor sampleBufferDoc "a" none).1
          && l.name == "buffer")).map Link.target
      = sampleBufferDoc.listBuffers.head?.toList :=
  ⟨by decide, createAccessor_default_buffer sampleBufferDoc "a" (by decide)⟩

/-- Claim C2, evaluated at a failing input: merging a document that uses
one required extension into a freshly constructed document leaves the
destination extension list empty, because step 1 of merge invokes
createExtension on the source document rather than on the destination. -/
theorem merge_extensions_never_reach_destination :
    sampleExtDoc.extensionsUsed = [⟨"TEST_extension", true⟩] ∧
    (Document.merge Document.new sampleExtDoc).1.extensionsUsed = [] := by
  decide

theorem setFirstRequired_self {l : List Extension} {e : Extension}
    (hnd : (l.map Extension.extensionName).Nodup) (he : e ∈ l)
    (hreq : e.required = true) :
    setFirstRequired l e.extensionName = l := by
  induction l with
  | nil => rfl
  | cons a rest ih =>
    rw [List.map_cons, List.nodup_cons] at hnd
    rw [setFirstRequired]
    rcases List.mem_cons.mp he with rfl | hmem
    · rw [if_pos (by simp)]
      have : { e with required := true } = e := by
        cases e
        simp_all
      rw [this]
    · have hne : (a.extensionName == e.extensionName) = false := by
        rw [beq_eq_false_iff_ne]
        intro hEq
        exact hnd.1 (hEq ▸ List.mem_map_of_mem Extension.extensionName hmem)
      rw [if_neg (by simp [hne]), ih hnd.2 hmem]

theorem mergeExtStep_id {src : Document} {e : Extension}
    (hnd : (src.extensionsUsed.map Extension.extensionName).Nodup)
    (he : e ∈ src.extensionsUsed) :
    Document.mergeExtStep src e = src := by
  have hfind : ∃ a, src.extensionsUsed.find?
      (fun x => x.extensionName == e.extensionName) = some a := by
    rw [← Option.isSome_iff_exists, List.find?_isSome]
    exact ⟨e, he, by simp⟩
  obtain ⟨a, ha⟩ := hfind
  unfold Document.mergeExtStep
  rw [Document.createExtension, ha]
  cases hreq : e.required with
  | false => rfl
  | true =>
    rw [if_pos rfl]
    have := setFirstRequired_self hnd he hreq
    simp [this]

theorem mergeExtensions_id (dest src : Document)
    (hnd : (src.extensionsUsed.map Extension.extensionName).Nodup) :
    Document.mergeExtensions dest src = (dest, src) := by
  unfold Document.mergeExtensions
  have main : ∀ es : List Extension, (∀ e ∈ es, e ∈ src.extensionsUsed) →
      es.foldl Document.mergeExtStep src = src := by
    intro es
    induction es with
    | nil => intro; rfl
    | cons e rest ih =>
      intro hsub
      rw [List.foldl_cons, mergeExtStep_id hnd (hsub e (List.mem_cons_self e rest))]
      exact ih (fun x hx => hsub x (List.mem_cons_of_mem e hx))
  rw [main src.extensionsUsed (fun e he => he)]

theorem merge_eq (dest src : Document)
    (hnd : (src.extensionsUsed.map Extension.extensionName).Nodup) :
    Document.merge dest src =
      (Document.mergeCopy (Document.mergeStubs dest src).2 src
        (Document.mergeStubs dest src).1, src) := by
  unfold Document.merge
  rw [mergeExtensions_id dest src hnd]

theorem link_props (g : Graph) (name : String) (a : PropId) (t : Option PropId) :
    ((g.link name a t).2).props = g.props ∧
    ((g.link name a t).2).nextPropId = g.nextPropId := by
  cases t <;> exact ⟨rfl, rfl⟩

theorem fold_copy_links_props (selfId : PropId)
    (resolve : PropId → Option PropId) (ls : List Link) (g : Graph) :
    ((ls.foldl (fun g2 l => (g2.link l.name selfId (resolve l.target)).2) g).props)
        = g.props ∧
    ((ls.foldl (fun g2 l => (g2.link l.name selfId (resolve l.target)).2) g).nextPropId)
        = g.nextPropId := by
  induction ls generalizing g with
  | nil => exact ⟨rfl, rfl⟩
  | cons l ls ih =>
    rw [List.foldl_cons]
    have h1 := link_props g l.name selfId (resolve l.target)
    have h2 := ih ((g.link l.name selfId (resolve l.target)).2)
    exact ⟨h2.1.trans h1.1, h2.2.trans h1.2⟩

theorem copyProp_props_ids (g srcG : Graph) (selfId otherId : PropId)
    (resolve : PropId → Option PropId) :
    ((Graph.copyProp g srcG selfId otherId resolve).props).map PropRec.id
        = g.props.map PropRec.id ∧
    (Graph.copyProp g srcG selfId otherId resolve).nextPropId = g.nextPropId := by
  unfold Graph.copyProp
  cases hfind : srcG.props.find? (fun r => r.id == otherId) with
  | none =>
    dsimp only
    exact ⟨congrArg (List.map PropRec.id)
        (fold_copy_links_props selfId resolve _ g).1,
      (fold_copy_links_props selfId resolve _ g).2⟩
  | some r =>
    dsimp only
    constructor
    · rw [(fold_copy_links_props selfId resolve _ _).1, List.map_map]
      apply List.map_congr_left
      intro q _
      simp only [Function.comp_apply]
      by_cases hq : (q.id == selfId) = true <;> simp [hq]
    · rw [(fold_copy_links_props selfId resolve _ _).2]

theorem mergeCopy_props_ids (dest src : Document)
    (pm : List (PropId × PropId)) :
    ((Document.mergeCopy dest src pm).graph.props).map PropRec.id
      = dest.graph.props.map PropRec.id := by
  unfold Document.mergeCopy
  dsimp only
  have main : ∀ (es : List (PropId × PropId)) (g : Graph),
      ((es.foldl (fun g2 e => g2.copyProp src.graph e.2 e.1 (resolveIn pm)) g).props).map
          PropRec.id = g.props.map PropRec.id := by
    intro es
    induction es with
    | nil => intro g; rfl
    | cons e rest ih =>
      intro g
      rw [List.foldl_cons, ih]
      exact (copyProp_props_ids g src.graph e.2 e.1 (resolveIn pm)).1
  exact main pm dest.graph

theorem stubfold_props (srcG : Graph) (ps : List PropId)
    (st : List (PropId × PropId) × Graph) :
    (∀ r ∈ ((ps.foldl (Document.addStub srcG) st).2).props,
      r ∈ st.2.props ∨ st.2.nextPropId ≤ r.id) ∧
    st.2.nextPropId ≤ ((ps.foldl (Document.addStub srcG) st).2).nextPropId := by
  induction ps generalizing st with
  | nil => exact ⟨fun r hr => Or.inl hr, Nat.le_refl _⟩
  | cons p ps ih =>
    rw [List.foldl_cons]
    have hstep := ih (Document.addStub srcG st p)
    unfold Document.addStub at hstep ⊢
    by_cases hv : ((st.1.find? (fun e => e.1 == p)).isSome) = true
    · rw [if_pos hv] at hstep ⊢
      exact hstep
    · rw [if_neg hv] at hstep ⊢
      dsimp only [Graph.allocProp] at hstep ⊢
      constructor
      · intro r hr
        rcases hstep.1 r hr with hold | hge
        · rcases List.mem_append.mp hold with h1 | h2
          · exact Or.inl h1
          · simp only [List.mem_singleton] at h2
            subst h2
            exact Or.inr (Nat.le_refl _)
        · exact Or.inr (Nat.le_of_succ_le hge)
      · exact Nat.le_trans (Nat.le_succ _) hstep.2

/-- Claim C3: merge returns the source document unobservably changed (its
graph links, Root collections and extension list are the same state), and
every participant of the merged destination is a pre-existing destination
participant or a fresh allocation, never a participant taken from the
source, so mutating the copy cannot reach the source. -/
theorem merge_does_not_mutate_source (dest src : Document)
    (h : Document.WF src) :
    (Document.merge dest src).2 = src ∧
    (∀ r ∈ (Document.merge dest src).1.graph.props,
      r.id ∈ dest.graph.props.map PropRec.id ∨ dest.graph.nextPropId ≤ r.id) := by
  obtain ⟨-, -, -, -, hnd⟩ := h
  constructor
  · rw [merge_eq dest src hnd]
  · intro r hr
    rw [merge_eq dest src hnd] at hr
    have hids := mergeCopy_props_ids (Document.mergeStubs dest src).2 src
      (Document.mergeStubs dest src).1
    have hmem : r.id ∈ ((Document.mergeStubs dest src).2).graph.props.map PropRec.id := by
      rw [← hids]
      exact List.mem_map_of_mem PropRec.id hr
    obtain ⟨r2, hr2, hr2id⟩ := List.mem_map.mp hmem
    have hstub := stubfold_props src.graph (linkEndpoints src.graph.links)
      ([(src.rootId, dest.rootId)], dest.graph)
    have : r2 ∈ dest.graph.props ∨ dest.graph.nextPropId ≤ r2.id := by
      have := hstub.1 r2 (by
        simpa [Document.mergeStubs] using hr2)
      simpa using this
    rcases this with h1 | h2
    · exact Or.inl (hr2id ▸ List.mem_map_of_mem PropRec.id h1)
    · exact Or.inr (hr2id ▸ h2)

/-- Witness for claim C3 at concrete documents. -/
theorem merge_does_not_mutate_source_witness :
    Document.WF sampleExtNodeDoc ∧
    ((Document.merge sampleBufferDoc sampleExtNodeDoc).2 = sampleExtNodeDoc ∧
      (∀ r ∈ (Document.merge sampleBufferDoc sampleExtNodeDoc).1.graph.props,
        r.id ∈ sampleBufferDoc.graph.props.map PropRec.id ∨
          sampleBufferDoc.graph.nextPropId ≤ r.id)) :=
  ⟨by decide, merge_does_not_mutate_source sampleBufferDoc sampleExtNodeDoc
    (by decide)⟩

theorem nodup_append_singleton {α : Type} {l : List α} {a : α}
    (h1 : l.Nodup) (h2 : a ∉ l) : (l ++ [a]).Nodup := by
  rw [List.nodup_append]
  refine ⟨h1, List.nodup_singleton a, ?_⟩
  intro x hx hxa
  rw [List.mem_singleton] at hxa
  subst hxa
  exact h2 hx

theorem stub_mem_iff (pm : List (PropId × PropId)) (p : PropId) :
    ((pm.find? (fun e => e.1 == p)).isSome = true) ↔ ∃ q, (p, q) ∈ pm := by
  rw [List.find?_isSome]
  constructor
  · rintro ⟨⟨e1, e2⟩, he, hbe⟩
    have h1 : e1 = p := by simpa using hbe
    subst h1
    exact ⟨e2, he⟩
  · rintro ⟨q, hq⟩
    exact ⟨(p, q), hq, by simp⟩

theorem typeOf_def (g : Graph) (q : PropId) :
    g.typeOf q = (g.props.find? (fun r => r.id == q)).map PropRec.ptype := rfl

theorem find?_props_append_of_isSome {ps : List PropRec} (qs : List PropRec)
    {q : PropId} (h : (ps.find? (fun r => r.id == q)).isSome = true) :
    (ps ++ qs).find? (fun r => r.id == q) = ps.find? (fun r => r.id == q) := by
  obtain ⟨a, ha⟩ := Option.isSome_iff_exists.mp h
  rw [List.find?_append, ha]
  rfl

theorem typeOf_isSome_of_mem {g : Graph} {q : PropId}
    (h : ∃ r ∈ g.props, r.id = q) : (g.typeOf q).isSome = true := by
  obtain ⟨r, hr, hid⟩ := h
  have hf : (g.props.find? (fun r => r.id == q)).isSome = true :=
    List.find?_isSome.mpr ⟨r, hr, by simp [hid]⟩
  obtain ⟨a, ha⟩ := Option.isSome_iff_exists.mp hf
  simp [typeOf_def, ha]

theorem typeOf_allocProp_old {g : Graph} (t : PType) (n : String) {q : PropId}
    (h : (g.typeOf q).isSome = true) :
    ((g.allocProp t n).2).typeOf q = g.typeOf q := by
  obtain ⟨τ, hτ⟩ := Option.isSome_iff_exists.mp h
  obtain ⟨r, hr, -⟩ := Option.map_eq_some'.mp hτ
  unfold Graph.typeOf Graph.allocProp
  dsimp only
  rw [List.find?_append, hr]
  rfl

theorem typeOf_allocProp_new {g : Graph} (t : PType) (n : String)
    (h : ∀ r ∈ g.props, r.id ≠ g.nextPropId) :
    ((g.allocProp t n).2).typeOf g.nextPropId = some t := by
  have h1 : g.props.find? (fun r => r.id == g.nextPropId) = none :=
    List.find?_eq_none.mpr (fun r hr => by simp [h r hr])
  unfold Graph.typeOf Graph.allocProp
  dsimp only
  rw [List.find?_append, h1, Option.none_or]
  simp [List.find?]

theorem stubInv_init (dest src : Document) (hd : dest.WF) :
    StubInv dest src [] ([(src.rootId, dest.rootId)], dest.graph) := by
  obtain ⟨hnodupD, hltD, ⟨rr, hrr, hrrid, hrrty⟩, hlinksD, -⟩ := hd
  refine ⟨by simp, by simp, ?_, by simp, fun r hr => Or.inl hr, fun r hr => hr,
    hltD, hnodupD, Nat.le_refl _, ?_, ?_, rfl, rfl⟩
  · intro x
    simp [Prod.ext_iff, eq_comm]
  · intro e he
    rw [List.mem_singleton] at he
    subst he
    exact Or.inl ⟨rfl, rfl⟩
  · intro e he
    rw [List.mem_singleton] at he
    subst he
    exact ⟨rr, hrr, hrrid⟩

theorem stubInv_step (dest src : Document) (processed : List PropId)
    (st : List (PropId × PropId) × Graph) (p : PropId)
    (inv : StubInv dest src processed st)
    (hp : (src.graph.typeOf p).isSome = true) :
    StubInv dest src (processed ++ [p]) (Document.addStub src.graph st p) := by
  unfold Document.addStub
  by_cases hv : ((st.1.find? (fun e => e.1 == p)).isSome = true)
  · rw [if_pos hv]
    have hvm := (stub_mem_iff st.1 p).mp hv
    refine ⟨inv.keys_nodup, inv.vals_nodup, ?_, inv.root_mem, inv.props_ext,
      inv.props_old, inv.props_lt, inv.props_nodup, inv.next_ge, inv.vals_spec,
      inv.vals_props, inv.links_eq, inv.nextLink_eq⟩
    intro x
    constructor
    · intro hx
      rcases (inv.keys_iff x).mp hx with h | h
      · exact Or.inl h
      · exact Or.inr (List.mem_append_left _ h)
    · intro hx
      rcases hx with h | h
      · exact (inv.keys_iff x).mpr (Or.inl h)
      · rcases List.mem_append.mp h with h1 | h2
        · exact (inv.keys_iff x).mpr (Or.inr h1)
        · rw [List.mem_singleton] at h2
          subst h2
          exact hvm
  · rw [if_neg hv]
    show StubInv dest src (processed ++ [p])
      (st.1 ++ [(p, st.2.nextPropId)],
        Graph.mk st.2.links st.2.nextLinkId
          (st.2.props ++
            [⟨st.2.nextPropId, (src.graph.typeOf p).getD PType.node, ""⟩])
          (st.2.nextPropId + 1))
    have hnotmem : ¬ ∃ q, (p, q) ∈ st.1 :=
      fun hq => hv ((stub_mem_iff st.1 p).mpr hq)
    have hpnotkey : p ∉ st.1.map Prod.fst := by
      intro hmem
      obtain ⟨⟨e1, e2⟩, he, hfst⟩ := List.mem_map.mp hmem
      dsimp only at hfst
      subst hfst
      exact hnotmem ⟨e2, he⟩
    have hfresh_not_val : st.2.nextPropId ∉ st.1.map Prod.snd := by
      intro hmem
      obtain ⟨e, he, hsnd⟩ := List.mem_map.mp hmem
      obtain ⟨r, hr, hrid⟩ := inv.vals_props e he
      have hlt := inv.props_lt r hr
      rw [hrid, hsnd] at hlt
      exact Nat.lt_irrefl _ hlt
    have hfresh_not_prop : ∀ r ∈ st.2.props, r.id ≠ st.2.nextPropId :=
      fun r hr => Nat.ne_of_lt (inv.props_lt r hr)
    have hproot : p ≠ src.rootId := by
      intro hEq
      exact hnotmem ⟨dest.rootId, hEq ▸ inv.root_mem⟩
    refine ⟨?_, ?_, ?_, ?_, ?_, ?_, ?_, ?_, ?_, ?_, ?_, ?_, ?_⟩
    · rw [List.map_append]
      exact nodup_append_singleton inv.keys_nodup hpnotkey
    · rw [List.map_append]
      exact nodup_append_singleton inv.vals_nodup hfresh_not_val
    · intro x
      constructor
      · rintro ⟨q, hq⟩
        rcases List.mem_append.mp hq with h1 | h2
        · rcases (inv.keys_iff x).mp ⟨q, h1⟩ with h | h
          · exact Or.inl h
          · exact Or.inr (List.mem_append_left _ h)
        · rw [List.mem_singleton, Prod.ext_iff] at h2
          exact Or.inr (List.mem_append_right _ (by
            rw [List.mem_singleton]
            exact h2.1))
      · intro hx
        rcases hx with h | h
        · obtain ⟨q, hq⟩ := (inv.keys_iff x).mpr (Or.inl h)
          exact ⟨q, List.mem_append_left _ hq⟩
        · rcases List.mem_append.mp h with h1 | h2
          · obtain ⟨q, hq⟩ := (inv.keys_iff x).mpr (Or.inr h1)
            exact ⟨q, List.mem_append_left _ hq⟩
          · rw [List.mem_singleton] at h2
            subst h2
            exact ⟨st.2.nextPropId, List.mem_append_right _ (by simp)⟩
    · exact List.mem_append_left _ inv.root_mem
    · intro r hr
      rcases List.mem_append.mp hr with h1 | h2
      · exact inv.props_ext r h1
      · rw [List.mem_singleton] at h2
        subst h2
        exact Or.inr inv.next_ge
    · intro r hr
      exact List.mem_append_left _ (inv.props_old r hr)
    · intro r hr
      rcases List.mem_append.mp hr with h1 | h2
      · exact Nat.lt_trans (inv.props_lt r h1) (Nat.lt_succ_self _)
      · rw [List.mem_singleton] at h2
        subst h2
        exact Nat.lt_succ_self _
    · rw [List.map_append]
      refine nodup_append_singleton inv.props_nodup ?_
      intro hmem
      obtain ⟨r, hr, hrid⟩ := List.mem_map.mp hmem
      exact hfresh_not_prop r hr hrid
    · exact Nat.le_trans inv.next_ge (Nat.le_succ _)
    · intro e he
      rcases List.mem_append.mp he with h1 | h2
      · rcases inv.vals_spec e h1 with h | h
        · exact Or.inl h
        · refine Or.inr ⟨h.1, h.2.1, ?_⟩
          have hiso : (st.2.props.find? (fun r => r.id == e.2)).isSome = true := by
            obtain ⟨r, hr, hrid⟩ := inv.vals_props e h1
            exact List.find?_isSome.mpr ⟨r, hr, by simp [hrid]⟩
          rw [typeOf_def]
          dsimp only
          rw [find?_props_append_of_isSome _ hiso]
          exact h.2.2
      · rw [List.mem_singleton] at h2
        subst h2
        refine Or.inr ⟨hproot, inv.next_ge, ?_⟩
        obtain ⟨τ0, hτ0⟩ := Option.isSome_iff_exists.mp hp
        have hnone : st.2.props.find? (fun r => r.id == st.2.nextPropId) = none :=
          List.find?_eq_none.mpr (fun r hr => by simp [hfresh_not_prop r hr])
        rw [hτ0, typeOf_def]
        dsimp only
        rw [List.find?_append, hnone, Option.none_or]
        simp
    · intro e he
      rcases List.mem_append.mp he with h1 | h2
      · obtain ⟨r, hr, hrid⟩ := inv.vals_props e h1
        exact ⟨r, List.mem_append_left _ hr, hrid⟩
      · rw [List.mem_singleton] at h2
        subst h2
        exact ⟨⟨st.2.nextPropId, (src.graph.typeOf p).getD PType.node, ""⟩,
          List.mem_append_right _ (by simp), rfl⟩
    · exact inv.links_eq
    · exact inv.nextLink_eq

theorem stubInv_fold (dest src : Document) (ps processed : List PropId)
    (st : List (PropId × PropId) × Graph)
    (inv : StubInv dest src processed st)
    (hty : ∀ p ∈ ps, (src.graph.typeOf p).isSome = true) :
    StubInv dest src (processed ++ ps)
      (ps.foldl (Document.addStub src.graph) st) := by
  induction ps generalizing processed st with
  | nil => simpa using inv
  | cons p ps ih =>
    rw [List.foldl_cons]
    have h1 := stubInv_step dest src processed st p inv (hty p (List.mem_cons_self p ps))
    have h2 := ih (processed ++ [p]) _ h1 (fun x hx => hty x (List.mem_cons_of_mem p hx))
    simpa [List.append_assoc] using h2

theorem mem_linkEndpoints {ls : List Link} {p : PropId} :
    p ∈ linkEndpoints ls ↔ ∃ l ∈ ls, l.source = p ∨ l.target = p := by
  induction ls with
  | nil => simp [linkEndpoints]
  | cons l ls ih =>
    rw [linkEndpoints]
    constructor
    · intro h
      rcases List.mem_cons.mp h with h1 | h1
      · exact ⟨l, List.mem_cons_self l ls, Or.inl h1.symm⟩
      rcases List.mem_cons.mp h1 with h2 | h2
      · exact ⟨l, List.mem_cons_self l ls, Or.inr h2.symm⟩
      · obtain ⟨l0, hl0, hc⟩ := ih.mp h2
        exact ⟨l0, List.mem_cons_of_mem l hl0, hc⟩
    · rintro ⟨l0, hl0, hc⟩
      rcases List.mem_cons.mp hl0 with h1 | h1
      · subst h1
        rcases hc with h | h
        · exact h ▸ List.mem_cons_self _ _
        · exact List.mem_cons_of_mem _ (h ▸ List.mem_cons_self _ _)
      · exact List.mem_cons_of_mem _ (List.mem_cons_of_mem _
          (ih.mpr ⟨l0, h1, hc⟩))

theorem endpoints_typeOf (src : Document) (hs : src.WF) :
    ∀ p ∈ linkEndpoints src.graph.links,
      (src.graph.typeOf p).isSome = true := by
  obtain ⟨-, -, -, hlinks, -⟩ := hs
  intro p hp
  obtain ⟨l, hl, hcase⟩ := mem_linkEndpoints.mp hp
  rcases hcase with h | h
  · obtain ⟨⟨r, hr, hrid⟩, -⟩ := hlinks l hl
    exact typeOf_isSome_of_mem ⟨r, hr, h ▸ hrid⟩
  · obtain ⟨-, ⟨r, hr, hrid⟩⟩ := hlinks l hl
    exact typeOf_isSome_of_mem ⟨r, hr, h ▸ hrid⟩

theorem mergeStubs_inv (dest src : Document) (hd : dest.WF) (hs : src.WF) :
    StubInv dest src (linkEndpoints src.graph.links)
      ((Document.mergeStubs dest src).1,
        (Document.mergeStubs dest src).2.graph) := by
  have h := stubInv_fold dest src (linkEndpoints src.graph.links) []
    ([(src.rootId, dest.rootId)], dest.graph) (stubInv_init dest src hd)
    (endpoints_typeOf src hs)
  simpa [Document.mergeStubs] using h

theorem fold_copy_links_mem (selfId : PropId) (resolve : PropId → Option PropId)
    (ls : List Link) (g : Graph) :
    ∀ l ∈ (ls.foldl
        (fun g2 l0 => (g2.link l0.name selfId (resolve l0.target)).2) g).links,
      l ∈ g.links ∨ ∃ l0 ∈ ls, resolve l0.target = some l.target := by
  induction ls generalizing g with
  | nil => exact fun l hl => Or.inl hl
  | cons l0 ls ih =>
    intro l hl
    rw [List.foldl_cons] at hl
    rcases ih _ l hl with hmem | ⟨l1, hl1, hres⟩
    · cases hc : resolve l0.target with
      | none =>
        rw [hc] at hmem
        exact Or.inl hmem
      | some t =>
        rw [hc] at hmem
        simp only [Graph.link] at hmem
        rcases List.mem_append.mp hmem with h1 | h2
        · exact Or.inl h1
        · rw [List.mem_singleton] at h2
          subst h2
          exact Or.inr ⟨l0, List.mem_cons_self _ _, by rw [hc]⟩
    · exact Or.inr ⟨l1, List.mem_cons_of_mem _ hl1, hres⟩

theorem copyProp_links_mem (g srcG : Graph) (selfId otherId : PropId)
    (resolve : PropId → Option PropId) :
    ∀ l ∈ (Graph.copyProp g srcG selfId otherId resolve).links,
      l ∈ g.links ∨ ∃ t, resolve t = some l.target := by
  intro l hl
  unfold Graph.copyProp at hl
  cases hfind : srcG.props.find? (fun r => r.id == otherId) with
  | none =>
    rw [hfind] at hl
    dsimp only at hl
    rcases fold_copy_links_mem selfId resolve _ g l hl with h | ⟨l0, _, h⟩
    · exact Or.inl h
    · exact Or.inr ⟨l0.target, h⟩
  | some r =>
    rw [hfind] at hl
    dsimp only at hl
    rcases fold_copy_links_mem selfId resolve _ _ l hl with h | ⟨l0, _, h⟩
    · exact Or.inl h
    · exact Or.inr ⟨l0.target, h⟩

theorem mergeCopy_links_mem (dest src : Document)
    (pm : List (PropId × PropId)) :
    ∀ l ∈ (Document.mergeCopy dest src pm).graph.links,
      l ∈ dest.graph.links ∨ ∃ t, resolveIn pm t = some l.target := by
  unfold Document.mergeCopy
  dsimp only
  have main : ∀ (es : List (PropId × PropId)) (g : Graph),
      ∀ l ∈ (es.foldl
          (fun g2 e => g2.copyProp src.graph e.2 e.1 (resolveIn pm)) g).links,
        l ∈ g.links ∨ ∃ t, resolveIn pm t = some l.target := by
    intro es
    induction es with
    | nil => exact fun g l hl => Or.inl hl
    | cons e es ih =>
      intro g l hl
      rw [List.foldl_cons] at hl
      rcases ih _ l hl with h | h
      · rcases copyProp_links_mem g src.graph e.2 e.1 (resolveIn pm) l h with h1 | h1
        · exact Or.inl h1
        · exact Or.inr h1
      · exact Or.inr h
  exact main pm dest.graph

theorem resolveIn_mem {pm : List (PropId × PropId)} {t q : PropId}
    (h : resolveIn pm t = some q) : (t, q) ∈ pm := by
  unfold resolveIn at h
  cases hf : pm.find? (fun e => e.1 == t) with
  | none =>
    rw [hf] at h
    exact absurd h (by simp)
  | some e =>
    rw [hf] at h
    have h2 : e.2 = q := by simpa using h
    have hmem := List.mem_of_find?_eq_some hf
    have he1 : e.1 = t := by simpa using List.find?_some hf
    obtain ⟨e1, e2⟩ := e
    dsimp only at he1 h2
    subst he1
    subst h2
    exact hmem

/-- Claim C5: during merge, before any link is wired in the destination, a
one-to-one map is built assigning to every participant occurring as an
endpoint of any Link registered in the source graph exactly one freshly
constructed participant of the same concrete type in the destination, with
the source Root mapped to the existing destination Root; only then is copy
invoked for each mapped participant, so every reference target already
exists when it is linked. -/
theorem merge_stub_map_spec (dest src : Document) (hd : Document.WF dest)
    (hs : Document.WF src) :
    Document.merge dest src =
      (Document.mergeCopy (Document.mergeStubs dest src).2 src
        (Document.mergeStubs dest src).1, src) ∧
    (∀ p, (∃ q, (p, q) ∈ (Document.mergeStubs dest src).1) ↔
      (p = src.rootId ∨ ∃ l ∈ src.graph.links, l.source = p ∨ l.target = p)) ∧
    ((Document.mergeStubs dest src).1.map Prod.fst).Nodup ∧
    ((Document.mergeStubs dest src).1.map Prod.snd).Nodup ∧
    (src.rootId, dest.rootId) ∈ (Document.mergeStubs dest src).1 ∧
    (∀ e ∈ (Document.mergeStubs dest src).1, e.1 ≠ src.rootId →
      (∀ r ∈ dest.graph.props, r.id ≠ e.2) ∧
      (Document.mergeStubs dest src).2.graph.typeOf e.2 = src.graph.typeOf e.1) ∧
    (∀ e ∈ (Document.mergeStubs dest src).1,
      ∃ r ∈ (Document.mergeStubs dest src).2.graph.props, r.id = e.2) ∧
    (∀ l ∈ (Document.mergeCopy (Document.mergeStubs dest src).2 src
        (Document.mergeStubs dest src).1).graph.links,
      l ∈ (Document.mergeStubs dest src).2.graph.links ∨
        ∃ r ∈ (Document.mergeStubs dest src).2.graph.props, r.id = l.target) := by
  have inv := mergeStubs_inv dest src hd hs
  refine ⟨merge_eq dest src hs.2.2.2.2, ?_, inv.keys_nodup, inv.vals_nodup,
    inv.root_mem, ?_, inv.vals_props, ?_⟩
  · intro p
    have hk := inv.keys_iff p
    constructor
    · intro hx
      rcases hk.mp hx with h | h
      · exact Or.inl h
      · exact Or.inr (mem_linkEndpoints.mp h)
    · intro hx
      rcases hx with h | h
      · exact hk.mpr (Or.inl h)
      · exact hk.mpr (Or.inr (mem_linkEndpoints.mpr h))
  · intro e he hroot
    rcases inv.vals_spec e he with h | h
    · exact absurd h.1 hroot
    · refine ⟨?_, h.2.2⟩
      intro r hr hEq
      have hlt := hd.2.1 r hr
      rw [hEq] at hlt
      exact Nat.lt_irrefl _ (Nat.lt_of_lt_of_le hlt h.2.1)
  · intro l hl
    rcases mergeCopy_links_mem (Document.mergeStubs dest src).2 src
      (Document.mergeStubs dest src).1 l hl with h | ⟨t, ht⟩
    · exact Or.inl h
    · obtain ⟨r, hr, hrid⟩ := inv.vals_props (t, l.target) (resolveIn_mem ht)
      exact Or.inr ⟨r, hr, hrid⟩

/-- Witness for claim C5 at concrete documents. -/
theorem merge_stub_map_spec_witness :
    Document.WF sampleBufferDoc ∧ Document.WF sampleNodeDoc ∧
    (Document.merge sampleBufferDoc sampleNodeDoc =
      (Document.mergeCopy (Document.mergeStubs sampleBufferDoc sampleNodeDoc).2
        sampleNodeDoc (Document.mergeStubs sampleBufferDoc sampleNodeDoc).1,
        sampleNodeDoc) ∧
    (∀ p, (∃ q, (p, q) ∈ (Document.mergeStubs sampleBufferDoc sampleNodeDoc).1) ↔
      (p = sampleNodeDoc.rootId ∨
        ∃ l ∈ sampleNodeDoc.graph.links, l.source = p ∨ l.target = p)) ∧
    ((Document.mergeStubs sampleBufferDoc sampleNodeDoc).1.map Prod.fst).Nodup ∧
    ((Document.mergeStubs sampleBufferDoc sampleNodeDoc).1.map Prod.snd).Nodup ∧
    (sampleNodeDoc.rootId, sampleBufferDoc.rootId) ∈
      (Document.mergeStubs sampleBufferDoc sampleNodeDoc).1 ∧
    (∀ e ∈ (Document.mergeStubs sampleBufferDoc sampleNodeDoc).1,
      e.1 ≠ sampleNodeDoc.rootId →
      (∀ r ∈ sampleBufferDoc.graph.props, r.id ≠ e.2) ∧
      (Document.mergeStubs sampleBufferDoc sampleNodeDoc).2.graph.typeOf e.2 =
        sampleNodeDoc.graph.typeOf e.1) ∧
    (∀ e ∈ (Document.mergeStubs sampleBufferDoc sampleNodeDoc).1,
      ∃ r ∈ (Document.mergeStubs sampleBufferDoc sampleNodeDoc).2.graph.props,
        r.id = e.2) ∧
    (∀ l ∈ (Document.mergeCopy
        (Document.mergeStubs sampleBufferDoc sampleNodeDoc).2 sampleNodeDoc
        (Document.mergeStubs sampleBufferDoc sampleNodeDoc).1).graph.links,
      l ∈ (Document.mergeStubs sampleBufferDoc sampleNodeDoc).2.graph.links ∨
        ∃ r ∈ (Document.mergeStubs sampleBufferDoc sampleNodeDoc).2.graph.props,
          r.id = l.target)) :=
  ⟨by decide, by decide,
    merge_stub_map_spec sampleBufferDoc sampleNodeDoc (by decide) (by decide)⟩

theorem fold_copy_links_strip (selfId : PropId) (resolve : PropId → Option PropId)
    (f : PropId → PropId) (ls : List Link) (g : Graph)
    (h : ∀ l ∈ ls, resolve l.target = some (f l.target)) :
    ((ls.foldl
        (fun g2 l0 => (g2.link l0.name selfId (resolve l0.target)).2) g).links).map
        stripLid
      = g.links.map stripLid ++ ls.map (fun l => (l.name, selfId, f l.target)) := by
  revert h
  induction ls generalizing g with
  | nil =>
    intro h
    simp
  | cons l0 ls ih =>
    intro h
    rw [List.foldl_cons, h l0 (List.mem_cons_self _ _)]
    rw [ih _ (fun l hl => h l (List.mem_cons_of_mem _ hl))]
    simp [Graph.link, stripLid]

theorem copyProp_links_strip (g srcG : Graph) (selfId otherId : PropId)
    (resolve : PropId → Option PropId) (f : PropId → PropId)
    (h : ∀ l ∈ srcG.links, l.source = otherId →
      resolve l.target = some (f l.target)) :
    (Graph.copyProp g srcG selfId otherId resolve).links.map stripLid
      = g.links.map stripLid ++
        (srcG.links.filter (fun l => l.source == otherId)).map
          (fun l => (l.name, selfId, f l.target)) := by
  have hflt : ∀ l ∈ srcG.links.filter (fun l => l.source == otherId),
      resolve l.target = some (f l.target) := by
    intro l hl
    have hm := List.mem_filter.mp hl
    exact h l hm.1 (by simpa using hm.2)
  unfold Graph.copyProp
  cases hfind : srcG.props.find? (fun r => r.id == otherId) with
  | none =>
    dsimp only
    exact fold_copy_links_strip selfId resolve f _ g hflt
  | some r =>
    dsimp only
    exact fold_copy_links_strip selfId resolve f _ _ hflt

theorem mergeCopy_links_strip (dest src : Document)
    (pm : List (PropId × PropId)) (f : PropId → PropId)
    (h : ∀ e ∈ pm, ∀ l ∈ src.graph.links, l.source = e.1 →
      resolveIn pm l.target = some (f l.target)) :
    (Document.mergeCopy dest src pm).graph.links.map stripLid
      = dest.graph.links.map stripLid ++ copiedSigs src.graph f pm := by
  unfold Document.mergeCopy
  dsimp only
  have main : ∀ es : List (PropId × PropId), (∀ e ∈ es, e ∈ pm) → ∀ g : Graph,
      ((es.foldl
          (fun g2 e => g2.copyProp src.graph e.2 e.1 (resolveIn pm)) g).links).map
          stripLid
        = g.links.map stripLid ++ copiedSigs src.graph f es := by
    intro es
    induction es with
    | nil =>
      intro _ g
      simp [copiedSigs]
    | cons e es ih =>
      intro hsub g
      rw [List.foldl_cons]
      rw [ih (fun x hx => hsub x (List.mem_cons_of_mem _ hx)) _]
      rw [copyProp_links_strip g src.graph e.2 e.1 (resolveIn pm) f
        (fun l hl hs => h e (hsub e (List.mem_cons_self _ _)) l hl hs)]
      rw [copiedSigs, List.append_assoc]
  exact main pm (fun e he => he) dest.graph

theorem outSig_eq_sigStrip (dd : Document) (f : PropId → PropId) (p : PropId) :
    Document.outSig dd f p = sigStrip p f (dd.graph.links.map stripLid) := by
  unfold Document.outSig sigStrip
  rw [List.filterMap_map]
  have main : ∀ ls : List Link,
      (ls.filter (fun l => l.source == p)).map (fun l => (l.name, f l.target))
        = List.filterMap
            ((fun x => if x.2.1 == p then some (x.1, f x.2.2) else none) ∘
              stripLid) ls := by
    intro ls
    induction ls with
    | nil => rfl
    | cons l ls ih =>
      by_cases hc : l.source = p
      · simp [List.filter_cons, List.filterMap_cons, stripLid, Function.comp,
          hc, ih]
      · simp [List.filter_cons, List.filterMap_cons, stripLid, Function.comp,
          hc, ih]
  exact main dd.graph.links

theorem sigStrip_append (q : PropId) (h : PropId → PropId)
    (a b : List (String × PropId × PropId)) :
    sigStrip q h (a ++ b) = sigStrip q h a ++ sigStrip q h b := by
  unfold sigStrip
  exact List.filterMap_append _ _ _

theorem sigStrip_map_const (q v : PropId) (h f : PropId → PropId)
    (ls : List Link) :
    sigStrip q h (ls.map (fun l => (l.name, v, f l.target)))
      = if v = q then ls.map (fun l => (l.name, h (f l.target))) else [] := by
  unfold sigStrip
  rw [List.filterMap_map]
  by_cases hc : v = q
  · subst hc
    rw [if_pos rfl]
    induction ls with
    | nil => rfl
    | cons l ls ih =>
      simp [List.filterMap_cons, Function.comp]
      simpa using ih
  · rw [if_neg hc]
    induction ls with
    | nil => rfl
    | cons l ls ih =>
      simp [List.filterMap_cons, Function.comp, hc]

theorem sigStrip_copiedSigs_nil (srcG : Graph) (f h : PropId → PropId)
    {pm : List (PropId × PropId)} {q : PropId}
    (hq : q ∉ pm.map Prod.snd) :
    sigStrip q h (copiedSigs srcG f pm) = [] := by
  induction pm with
  | nil => rfl
  | cons e rest ih =>
    rw [List.map_cons] at hq
    have h1 : e.2 ≠ q := fun hEq => hq (hEq ▸ List.mem_cons_self _ _)
    have h2 : q ∉ rest.map Prod.snd := fun hx => hq (List.mem_cons_of_mem _ hx)
    rw [copiedSigs, sigStrip_append, sigStrip_map_const, if_neg h1, ih h2]
    rfl

theorem sigStrip_copiedSigs (srcG : Graph) (f h : PropId → PropId)
    {pm : List (PropId × PropId)} {e0 : PropId × PropId}
    (hnd : (pm.map Prod.snd).Nodup) (h0 : e0 ∈ pm) :
    sigStrip e0.2 h (copiedSigs srcG f pm)
      = (srcG.links.filter (fun l => l.source == e0.1)).map
          (fun l => (l.name, h (f l.target))) := by
  induction pm with
  | nil => cases h0
  | cons e rest ih =>
    rw [List.map_cons, List.nodup_cons] at hnd
    rw [copiedSigs, sigStrip_append]
    rcases List.mem_cons.mp h0 with h1 | h1
    · subst h1
      rw [sigStrip_map_const, if_pos rfl,
        sigStrip_copiedSigs_nil srcG f h hnd.1, List.append_nil]
    · have hne : e.2 ≠ e0.2 := by
        intro hEq
        exact hnd.1 (hEq ▸ List.mem_map_of_mem Prod.snd h1)
      rw [sigStrip_map_const, if_neg hne, List.nil_append]
      exact ih hnd.2 h1

theorem find?_snd_of_mem {pm : List (PropId × PropId)} {t q : PropId}
    (hnd : (pm.map Prod.snd).Nodup) (h : (t, q) ∈ pm) :
    pm.find? (fun e => e.2 == q) = some (t, q) := by
  induction pm with
  | nil => cases h
  | cons e rest ih =>
    rw [List.map_cons, List.nodup_cons] at hnd
    rcases List.mem_cons.mp h with h1 | h1
    · rw [← h1]
      exact List.find?_cons_of_pos _ (by simp)
    · have hne : (e.2 == q) = false := by
        rw [beq_eq_false_iff_ne]
        intro hEq
        exact hnd.1 (hEq ▸ List.mem_map_of_mem Prod.snd h1)
      rw [List.find?_cons_of_neg _ (by simp [hne])]
      exact ih hnd.2 h1

theorem find?_fst_of_mem {pm : List (PropId × PropId)} {t q : PropId}
    (hnd : (pm.map Prod.fst).Nodup) (h : (t, q) ∈ pm) :
    pm.find? (fun e => e.1 == t) = some (t, q) := by
  induction pm with
  | nil => cases h
  | cons e rest ih =>
    rw [List.map_cons, List.nodup_cons] at hnd
    rcases List.mem_cons.mp h with h1 | h1
    · rw [← h1]
      exact List.find?_cons_of_pos _ (by simp)
    · have hne : (e.1 == t) = false := by
        rw [beq_eq_false_iff_ne]
        intro hEq
        exact hnd.1 (hEq ▸ List.mem_map_of_mem Prod.fst h1)
      rw [List.find?_cons_of_neg _ (by simp [hne])]
      exact ih hnd.2 h1

theorem unresolveD_eq {pm : List (PropId × PropId)} {t q : PropId}
    (hnd : (pm.map Prod.snd).Nodup) (h : (t, q) ∈ pm) :
    unresolveD pm q = t := by
  unfold unresolveD
  rw [find?_snd_of_mem hnd h]
  rfl

theorem resolveD_eq {pm : List (PropId × PropId)} {t q : PropId}
    (hnd : (pm.map Prod.fst).Nodup) (h : (t, q) ∈ pm) :
    resolveD pm t = q := by
  unfold resolveD resolveIn
  rw [find?_fst_of_mem hnd h]
  rfl

theorem resolveIn_eq_some_resolveD {pm : List (PropId × PropId)} {t : PropId}
    (h : ∃ q, (t, q) ∈ pm) :
    resolveIn pm t = some (resolveD pm t) := by
  have hf : (pm.find? (fun e => e.1 == t)).isSome = true :=
    (stub_mem_iff pm t).mpr h
  obtain ⟨e, he⟩ := Option.isSome_iff_exists.mp hf
  unfold resolveD resolveIn
  rw [he]
  rfl

/-- Claim C4: clone is exactly merge into a freshly constructed empty
Document, and the clone is structurally equivalent to the original under
the equals contract (outbound link signatures correspond through a renaming
of participant identities, identity itself ignored). -/
theorem clone_equals (d : Document) (h : Document.WF d) :
    Document.clone d = (Document.merge Document.new d).1 ∧
    Document.equals (Document.clone d) d := by
  refine ⟨rfl, ?_⟩
  have hndext := h.2.2.2.2
  have hnew : Document.WF Document.new := by decide
  set pm := (Document.mergeStubs Document.new d).1 with hpm
  set dest2 := (Document.mergeStubs Document.new d).2 with hdest2
  have inv := mergeStubs_inv Document.new d hnew h
  have hclone : Document.clone d = Document.mergeCopy dest2 d pm := by
    unfold Document.clone
    rw [merge_eq Document.new d hndext]
  have hnil : dest2.graph.links = [] := inv.links_eq.trans rfl
  have hres : ∀ e ∈ pm, ∀ l ∈ d.graph.links, l.source = e.1 →
      resolveIn pm l.target = some (resolveD pm l.target) := by
    intro e _ l hl _
    apply resolveIn_eq_some_resolveD
    exact (inv.keys_iff l.target).mpr
      (Or.inr (mem_linkEndpoints.mpr ⟨l, hl, Or.inr rfl⟩))
  have hstrip : (Document.clone d).graph.links.map stripLid
      = copiedSigs d.graph (resolveD pm) pm := by
    rw [hclone, mergeCopy_links_strip dest2 d pm (resolveD pm) hres, hnil]
    rfl
  have hrootid : (Document.clone d).rootId = Document.new.rootId := by
    rw [hclone]
    rfl
  unfold Document.equals
  refine ⟨unresolveD pm, ?_, ?_⟩
  · rw [hrootid]
    exact unresolveD_eq inv.vals_nodup inv.root_mem
  · intro p hreach
    have hmem : p ∈ pm.map Prod.snd := by
      induction hreach with
      | root =>
        rw [hrootid]
        exact List.mem_map_of_mem Prod.snd inv.root_mem
      | step hr hl hsrc ih =>
        rename_i p0 l
        rw [hclone] at hl
        rcases mergeCopy_links_mem dest2 d pm l hl with h1 | ⟨t, ht⟩
        · rw [hnil] at h1
          cases h1
        · exact List.mem_map_of_mem Prod.snd (resolveIn_mem ht)
    obtain ⟨e0, he0, he0snd⟩ := List.mem_map.mp hmem
    rw [outSig_eq_sigStrip, hstrip, ← he0snd,
      sigStrip_copiedSigs d.graph (resolveD pm) (unresolveD pm)
        inv.vals_nodup he0]
    have hfp2 : unresolveD pm e0.2 = e0.1 := by
      have heta : ((e0.1, e0.2) : PropId × PropId) = e0 := rfl
      exact unresolveD_eq inv.vals_nodup (heta ▸ he0)
    rw [hfp2]
    have hback : ∀ l ∈ d.graph.links.filter (fun l => l.source == e0.1),
        unresolveD pm (resolveD pm l.target) = l.target := by
      intro l hl
      have hlm := (List.mem_filter.mp hl).1
      obtain ⟨q, hq⟩ := (inv.keys_iff l.target).mpr
        (Or.inr (mem_linkEndpoints.mpr ⟨l, hlm, Or.inr rfl⟩))
      rw [resolveD_eq inv.keys_nodup hq]
      exact unresolveD_eq inv.vals_nodup hq
    unfold Document.outSig
    apply List.map_congr_left
    intro l hl
    rw [hback l hl]
    rfl

/-- Witness for claim C4 at a concrete document. -/
theorem clone_equals_witness :
    Document.WF sampleNodeDoc ∧
    (Document.clone sampleNodeDoc = (Document.merge Document.new sampleNodeDoc).1 ∧
      Document.equals (Document.clone sampleNodeDoc) sampleNodeDoc) :=
  ⟨by decide, clone_equals sampleNodeDoc (by decide)⟩

/-- Claim C10: a Node returns null for its mesh and camera references when
they were never set, and setting either reference with an absent argument
stores a null link, so the getter again returns null. -/
theorem node_single_valued_refs_clear (i : PropId) (n : Node) (g : Graph) :
    Node.getMesh (Node.new i) = none ∧ Node.getCamera (Node.new i) = none ∧
    (n.setMesh g none).1.mesh = none ∧ Node.getMesh (n.setMesh g none).1 = none ∧
    (n.setCamera g none).1.camera = none ∧
    Node.getCamera (n.setCamera g none).1 = none := by
  simp [Node.new, Node.getMesh, Node.getCamera, Node.setMesh, Node.setCamera,
    Graph.link]

end GT
